import Mathlib

/-!
Shallow embedding of `TradeOgre::getNewPrice` from
`src/price_oracles/tradeogre.cpp`.

The function downloads two JSON feeds, validates them, parses the two decimal
price strings with MPFR (256-bit significand, round-to-nearest-even), multiplies
them, renders the product as a fixed-point decimal string whose number of
fractional digits is the sum of the fractional-digit counts of the two input
literals, strips trailing zero characters and a dangling decimal point, and
returns the string together with a clock-skew-clamped timestamp.

Modelling conventions:
* JSON documents are modelled by the inductive `Json`; the transport layer and
  the JSON parser proper are outside the claims, so `getNewPrice` takes the two
  already-parsed documents as arguments.
* Time is modelled in integer nanoseconds since the epoch, matching
  `std::chrono::system_clock` with an `int64_t` nanosecond representation
  (libstdc++).  `duration_cast` to seconds truncates toward zero.
* MPFR numbers are modelled as dyadic values `m * 2 ^ e` whose mantissa is
  rounded to 256 bits with round-to-nearest, ties to even (`MPFR_RNDN`), by a
  single rounding per operation, exactly as `mpfr_set_str`, `mpfr_mul` and
  `mpfr_snprintf` behave at this exponent range.
* All functions are fuel-free structural definitions so that concrete runs
  reduce inside the kernel.
-/

namespace TradeOgre

/-- Number of binary digits of `n`, computed with explicit fuel so that the
definition reduces definitionally.  `bitlenAux (n+1) n` always has enough
fuel because the argument at least halves at every step. -/
def bitlenAux : Nat → Nat → Nat
  | 0, _ => 0
  | fuel + 1, n => if n = 0 then 0 else bitlenAux fuel (n / 2) + 1

/-- Number of binary digits of `n` (`0` for `n = 0`). -/
def bitlen (n : Nat) : Nat :=
  bitlenAux (n + 1) n

/-- Round `a / b` (with `b > 0`) to the nearest integer, ties to even:
the integer rounding mode used by `MPFR_RNDN`. -/
def rheDivInt (a b : Int) : Int :=
  let q := Int.fdiv a b
  let r := a - q * b
  if 2 * r < b then q
  else if b < 2 * r then q + 1
  else if Int.emod q 2 = 0 then q else q + 1

/-- A dyadic number `m * 2 ^ e`: the value of one MPFR variable
(`mpfr_init2(x, 256)` keeps 256 significand bits). -/
structure Dyadic where
  m : Int
  e : Int
deriving DecidableEq, Repr

/-- Round the dyadic value `m * 2 ^ e` to a mantissa of at most `p` bits,
round-to-nearest ties-to-even, as MPFR does when storing a result into a
`p`-bit variable. -/
def roundDyadic (p : Nat) (m e : Int) : Dyadic :=
  let len := bitlen m.natAbs
  if len ≤ p then ⟨m, e⟩
  else
    let s := len - p
    ⟨rheDivInt m ((2 : Int) ^ s), e + (s : Int)⟩

/-- Floor of the base-2 logarithm of the positive rational `n / d`
(both arguments at least 1), computed exactly on integers. -/
def floorLog2Rat (n d : Nat) : Int :=
  let e : Int := (bitlen n : Int) - (bitlen d : Int)
  if 0 ≤ e then (if (d : Int) * 2 ^ e.toNat ≤ (n : Int) then e else e - 1)
  else (if (d : Int) ≤ (n : Int) * 2 ^ (-e).toNat then e else e - 1)

/-- Round the positive rational `n / d` to a 256-bit-mantissa dyadic value
with a single round-to-nearest-even rounding: the value `mpfr_set_str`
stores for the decimal literal `n / d` with `MPFR_RNDN`. -/
def divRound256 (n d : Nat) : Dyadic :=
  let L := floorLog2Rat n d
  let s : Int := 255 - L
  let m :=
    if 0 ≤ s then rheDivInt ((n : Int) * 2 ^ s.toNat) (d : Int)
    else rheDivInt (n : Int) ((d : Int) * 2 ^ (-s).toNat)
  ⟨m, L - 255⟩

/-- Value stored by `mpfr_set_str` for a decimal literal whose concatenated
digits denote `n` and which has `f` digits after the decimal point, i.e. the
rational `n / 10 ^ f` rounded once to 256 bits. -/
def decToDyadic256 (n f : Nat) : Dyadic :=
  if n = 0 then ⟨0, 0⟩ else divRound256 n (10 ^ f)

/-- Model of `mpfr_mul(x, x, y, MPFR_RNDN)` at 256-bit precision: exact
product of the two dyadic values, rounded once to 256 mantissa bits. -/
def mulDyadic256 (x y : Dyadic) : Dyadic :=
  roundDyadic 256 (x.m * y.m) (x.e + y.e)

/-- ASCII digit character for `d < 10`. -/
def digitChar (d : Nat) : Char :=
  Char.ofNat (48 + d)

/-- Decimal digits of `n`, least significant first, with explicit fuel
(`n + 1` always suffices) so that the definition reduces in the kernel. -/
def natDigitsRevAux : Nat → Nat → List Char
  | 0, _ => []
  | fuel + 1, n =>
    if n < 10 then [digitChar n]
    else digitChar (n % 10) :: natDigitsRevAux fuel (n / 10)

/-- Decimal digits of `n`, most significant first; `"0"` for `n = 0`.
This is how `mpfr_snprintf` lays out the integral part of a number. -/
def natToDigits (n : Nat) : List Char :=
  (natDigitsRevAux (n + 1) n).reverse

/-- Left-pad a digit string with `'0'` up to width `w` (fractional parts are
printed with exactly `w` digits by `%.wR*F`). -/
def padLeftZeros (w : Nat) (l : List Char) : List Char :=
  List.replicate (w - l.length) '0' ++ l

/-- Number of characters after the first `'.'` of the string (0 when there is
no `'.'`): the quantity `strlen(price) - (decimal + 1 - price)` the source
adds to `precision` when `strchr(price, '.')` finds a decimal point. -/
def fracCount (s : List Char) : Nat :=
  ((s.dropWhile (fun c => c != '.')).drop 1).length

/-- The character-validation loop of the source: every character of the price
string must satisfy `isdigit(*i) || *i == '.'`. -/
def priceCharsOk (s : List Char) : Bool :=
  s.all (fun c => c.isDigit || c == '.')

/-- Numeric value of a list of ASCII digit characters. -/
def digitsToNat (s : List Char) : Nat :=
  s.foldl (fun acc c => 10 * acc + (c.toNat - 48)) 0

/-- Model of `mpfr_set_str(x, price, 10, MPFR_RNDN)` on the strings that can
reach it in this pipeline (only digits and periods survive the preceding
character-validation loop): the parse succeeds iff the string holds at least
one digit and at most one period, and stores the literal's value rounded to
256 bits.  `none` models a non-zero return value of `mpfr_set_str`. -/
def parsePrice (s : List Char) : Option Dyadic :=
  if s.count '.' ≤ 1 && s.any Char.isDigit then
    some (decToDyadic256 (digitsToNat (s.filter (fun c => c != '.'))) (fracCount s))
  else none

/-- Value of the dyadic scaled by `10 ^ w` and rounded to the nearest integer,
ties to even: the integer whose digits `mpfr_snprintf("%.wR*F", MPFR_RNDN, x)`
prints. -/
def renderScaled (w : Nat) (v : Dyadic) : Int :=
  if 0 ≤ v.e then v.m * 2 ^ v.e.toNat * 10 ^ w
  else rheDivInt (v.m * 10 ^ w) ((2 : Int) ^ (-v.e).toNat)

/-- Fixed-point rendering of a (nonnegative) dyadic value with exactly `w`
fractional digits, as `mpfr_snprintf` with format `%.wR*F` and rounding
`MPFR_RNDN` produces it; with `w = 0` no decimal point is printed. -/
def renderFixed (w : Nat) (v : Dyadic) : List Char :=
  let k := (renderScaled w v).toNat
  if w = 0 then natToDigits k
  else natToDigits (k / 10 ^ w) ++ '.' :: padLeftZeros w (natToDigits (k % 10 ^ w))

/-- The `result.substr(0, result.find_last_not_of('0') + 1)` step: remove all
trailing `'0'` characters (the whole string collapses to `[]` when it is all
zeros, matching `npos + 1 = 0` in the source). -/
def stripTrailingZeros (s : List Char) : List Char :=
  (s.reverse.dropWhile (fun c => c == '0')).reverse

/-- The canonicalization block of the source: when the rendered string is not
exactly `"0"`, strip trailing `'0'` characters if the last character is `'0'`,
then pop a trailing `'.'` if one is left. -/
def canonicalize (s : List Char) : List Char :=
  if s = ['0'] then s
  else
    let s1 := if s.getLast? = some '0' then stripTrailingZeros s else s
    if s1.getLast? = some '.' then s1.dropLast else s1

/-- Canonical decimal string in the sense of the specification glossary: no
dangling decimal point, and no superfluous trailing fractional zero (a string
without a decimal point has no fractional part, so its trailing zeros are
significant integer digits). -/
def specCanonical (s : List Char) : Bool :=
  (s.getLast? != some '.') && (!(s.contains '.') || (s.getLast? != some '0'))

/-- Parsed JSON documents as seen through the simdjson DOM accessors the
source uses (`is_array`, `is_object`, `is_int64`, `is_string`, `is_bool`,
`at`, `operator[]`). -/
inductive Json where
  | null
  | bool (b : Bool)
  | int (n : Int)
  | str (s : String)
  | arr (elems : List Json)
  | obj (fields : List (String × Json))

/-- simdjson's `element::operator[]` on an object: the first field whose key
matches. -/
def lookupFirst : List (String × Json) → String → Option Json
  | [], _ => none
  | (k, v) :: rest, key => if k == key then some v else lookupFirst rest key

/-- The errors thrown by `TradeOgre::getNewPrice` after transport, one
constructor per `runtime_error` message in the source. -/
inductive OracleError where
  | mwcResponseInvalid
  | mwcObservationInvalid
  | dateInvalid
  | mwcPriceInvalid
  | btcResponseInvalid
  | btcPriceInvalid
  | resultInvalid
deriving DecidableEq, Repr

/-- Nanoseconds per second: the tick ratio between `chrono::seconds` and the
`system_clock` duration. -/
def nsPerSecond : Int := 1000000000

/-- `duration_cast<seconds>(time_point<system_clock>::min().time_since_epoch()).count()`
for an `int64_t` nanosecond clock; `duration_cast` truncates toward zero. -/
def minSeconds : Int := Int.tdiv (-9223372036854775808) nsPerSecond

/-- `duration_cast<seconds>(time_point<system_clock>::max().time_since_epoch()).count()`
for an `int64_t` nanosecond clock; `duration_cast` truncates toward zero. -/
def maxSeconds : Int := Int.tdiv 9223372036854775807 nsPerSecond

/-- Timestamp derivation: `date` seconds as a nanosecond time point, replaced
by `now` when it lies strictly in the future. -/
def clampTimestamp (date now : Int) : Int :=
  if date * nsPerSecond > now then now else date * nsPerSecond

/-- simdjson's `json.at(json.get_array().size() - 1)`: element at index
`length - 1`. -/
def feedALast (elems : List Json) : Option Json :=
  elems[elems.length - 1]?

/-- Feed-A shape validation and extraction: the response must be a non-empty
array whose last element is an object with an `int64` field `date` and a
string field `price`. -/
def feedAStage (j : Json) : Except OracleError (Int × List Char) :=
  match j with
  | .arr [] => .error .mwcResponseInvalid
  | .arr elems =>
    match feedALast elems with
    | some (.obj fields) =>
      match lookupFirst fields "date", lookupFirst fields "price" with
      | some (.int date), some (.str price) => .ok (date, price.data)
      | _, _ => .error .mwcObservationInvalid
    | _ => .error .mwcObservationInvalid
  | _ => .error .mwcResponseInvalid

/-- Feed-B shape validation and extraction: the response must be an object
whose `success` field is the boolean `true` and whose `price` field is a
string. -/
def feedBStage (j : Json) : Except OracleError (List Char) :=
  match j with
  | .obj fields =>
    match lookupFirst fields "success", lookupFirst fields "price" with
    | some (.bool true), some (.str price) => .ok price.data
    | _, _ => .error .btcResponseInvalid
  | _ => .error .btcResponseInvalid

/-- One price-string stage of the source, shared verbatim by both feeds (only
the thrown message differs, hence the error parameter): character-validation
loop, then `mpfr_set_str`, then the `mpfr_sgn <= 0` check, then the
fractional-digit count added to `precision`. -/
def priceStage (e : OracleError) (s : List Char) : Except OracleError (Dyadic × Nat) :=
  if priceCharsOk s then
    match parsePrice s with
    | none => .error e
    | some v => if v.m ≤ 0 then .error e else .ok (v, fracCount s)
  else .error e

/-- Multiplication, the defensive `mpfr_sgn <= 0` check on the product, the
fixed-point rendering with `precision` fractional digits, and the
trailing-zero / trailing-point stripping of the source. -/
def compositorStage (x y : Dyadic) (prec : Nat) : Except OracleError (List Char) :=
  let p := mulDyadic256 x y
  if p.m ≤ 0 then .error .resultInvalid
  else .ok (canonicalize (renderFixed prec p))

/-- The whole price computation: feed-A price stage, feed-B shape and price
stages, compositor; in the source order. -/
def pricePath (aPrice : List Char) (btcJson : Json) : Except OracleError (List Char) :=
  match priceStage .mwcPriceInvalid aPrice with
  | .error e => .error e
  | .ok (x, m) =>
    match feedBStage btcJson with
    | .error e => .error e
    | .ok bPrice =>
      match priceStage .btcPriceInvalid bPrice with
      | .error e => .error e
      | .ok (y, n) => compositorStage x y (m + n)

/-- `TradeOgre::getNewPrice` after transport: both JSON documents and the
current wall-clock time (nanoseconds since the epoch) in, a timestamp and the
canonical price string out, or the first validation error. -/
def getNewPrice (mwcJson btcJson : Json) (now : Int) : Except OracleError (Int × String) :=
  match feedAStage mwcJson with
  | .error e => .error e
  | .ok (date, aPrice) =>
    if date < minSeconds ∨ maxSeconds < date then .error .dateInvalid
    else
      match pricePath aPrice btcJson with
      | .error e => .error e
      | .ok s => .ok (clampTimestamp date now, String.mk s)

/-- Labels for the successive blocks of the source function, in the order the
code executes them. -/
inductive Stage where
  | feedAShape
  | dateCheck
  | timestampClamp
  | feedAPrice
  | feedBShape
  | feedBPrice
  | multiply
  | render
deriving DecidableEq, Repr

/-- The blocks of the source that actually execute on a given pair of inputs,
in source order: each stage appears iff control flow reaches its code before
the first `throw`.  The timestamp clamp does not depend on the clock value,
only on whether control reaches it. -/
def executedStages (mwcJson btcJson : Json) : List Stage :=
  match feedAStage mwcJson with
  | .error _ => [.feedAShape]
  | .ok (date, aPrice) =>
    if date < minSeconds ∨ maxSeconds < date then [.feedAShape, .dateCheck]
    else
      [.feedAShape, .dateCheck, .timestampClamp] ++
      match priceStage .mwcPriceInvalid aPrice with
      | .error _ => [.feedAPrice]
      | .ok _ =>
        [.feedAPrice] ++
        match feedBStage btcJson with
        | .error _ => [.feedBShape]
        | .ok bPrice =>
          [.feedBShape] ++
          match priceStage .btcPriceInvalid bPrice with
          | .error _ => [.feedBPrice]
          | .ok _ => [.feedBPrice, .multiply, .render]

/-- Feed-A document with a single observation, as in the specification's
examples. -/
def mkFeedA (date : Int) (price : String) : Json :=
  Json.arr [Json.obj [("date", Json.int date), ("price", Json.str price)]]

/-- Feed-B document with `success = true`. -/
def mkFeedB (price : String) : Json :=
  Json.obj [("success", Json.bool true), ("price", Json.str price)]

/-- Feed-B document of the specification's Example 4: `success` is `false`. -/
def badFeedB : Json :=
  Json.obj [("success", Json.bool false), ("price", Json.str "100")]

/-- Trailing-junk freedom: the property the specification ascribes to
canonicalized output, as a proposition. -/
def JunkFree (s : List Char) : Prop :=
  s.getLast? ≠ some '.' ∧ ('.' ∈ s → s.getLast? ≠ some '0')

theorem specCanonical_eq_true_iff {s : List Char} :
    specCanonical s = true ↔ JunkFree s := by
  simp [specCanonical, JunkFree, Bool.and_eq_true, Bool.or_eq_true, bne_iff_ne,
    Bool.not_eq_true', List.elem_iff, decide_eq_false_iff_not, or_iff_not_imp_left]

theorem digitChar_isDigit : ∀ d < 10, (digitChar d).isDigit = true := by decide

theorem isDigit_ne_dot {c : Char} (h : c.isDigit = true) : c ≠ '.' := by
  intro hc
  subst hc
  exact absurd h (by decide)

theorem isDigit_ne_dot_beq {c : Char} (h : c.isDigit = true) : (c != '.') = true := by
  simpa [bne_iff_ne] using isDigit_ne_dot h

theorem mem_natDigitsRevAux {c : Char} :
    ∀ {fuel n : Nat}, c ∈ natDigitsRevAux fuel n → ∃ d, d < 10 ∧ c = digitChar d := by
  intro fuel
  induction fuel with
  | zero => intro n h; simp [natDigitsRevAux] at h
  | succ f ih =>
    intro n h
    rw [natDigitsRevAux] at h
    split at h
    · rename_i hn
      simp at h
      exact ⟨n, hn, h⟩
    · rcases List.mem_cons.mp h with h | h
      · exact ⟨n % 10, Nat.mod_lt _ (by norm_num), h⟩
      · exact ih h

theorem mem_natToDigits {c : Char} {n : Nat} (h : c ∈ natToDigits n) : c.isDigit = true := by
  rw [natToDigits, List.mem_reverse] at h
  obtain ⟨d, hd, rfl⟩ := mem_natDigitsRevAux h
  exact digitChar_isDigit d hd

theorem natToDigits_ne_nil (n : Nat) : natToDigits n ≠ [] := by
  rw [natToDigits]
  simp only [ne_eq, List.reverse_eq_nil_iff]
  rw [natDigitsRevAux]
  split <;> simp

theorem natDigitsRevAux_length_le :
    ∀ (fuel n w : Nat), 1 ≤ w → n < 10 ^ w → (natDigitsRevAux fuel n).length ≤ w := by
  intro fuel
  induction fuel with
  | zero => intro n w _ _; simp [natDigitsRevAux]
  | succ f ih =>
    intro n w hw hn
    rw [natDigitsRevAux]
    split
    · simpa using hw
    · rename_i hge
      have h10 : 10 ≤ n := by omega
      have hw2 : 2 ≤ w := by
        rcases Nat.lt_or_ge w 2 with h | h
        · interval_cases w
          · simp at hn; omega
        · exact h
      have hdiv : n / 10 < 10 ^ (w - 1) := by
        have : n < 10 ^ (w - 1) * 10 := by
          have : 10 ^ (w - 1) * 10 = 10 ^ w := by
            rw [← pow_succ]
            congr 1
            omega
          omega
        omega
      have := ih (n / 10) (w - 1) (by omega) hdiv
      simp only [List.length_cons]
      omega

theorem natToDigits_length_le {n w : Nat} (hw : 1 ≤ w) (hn : n < 10 ^ w) :
    (natToDigits n).length ≤ w := by
  rw [natToDigits, List.length_reverse]
  exact natDigitsRevAux_length_le _ _ _ hw hn

theorem padLeftZeros_length {w : Nat} {l : List Char} (h : l.length ≤ w) :
    (padLeftZeros w l).length = w := by
  simp [padLeftZeros]
  omega

theorem mem_padLeftZeros_isDigit {c : Char} {w : Nat} {l : List Char}
    (hl : ∀ x ∈ l, x.isDigit = true) (h : c ∈ padLeftZeros w l) : c.isDigit = true := by
  rcases List.mem_append.mp h with h | h
  · have := List.eq_of_mem_replicate h
    subst this
    decide
  · exact hl c h

theorem dropWhile_ne_dot_of_digits {l : List Char} (h : ∀ c ∈ l, c.isDigit = true) :
    l.dropWhile (fun c => c != '.') = [] := by
  rw [List.dropWhile_eq_nil_iff]
  intro x hx
  exact isDigit_ne_dot_beq (h x hx)

theorem dropWhile_append_dot {I F : List Char} (hI : ∀ c ∈ I, c.isDigit = true) :
    (I ++ '.' :: F).dropWhile (fun c => c != '.') = '.' :: F := by
  induction I with
  | nil => simp [List.dropWhile]
  | cons a t ih =>
    rw [List.cons_append, List.dropWhile_cons, if_pos (isDigit_ne_dot_beq (hI a (by simp)))]
    exact ih (fun c hc => hI c (by simp [hc]))

theorem fracCount_renderFixed (w : Nat) (v : Dyadic) : fracCount (renderFixed w v) = w := by
  rw [renderFixed, fracCount]
  split
  · rename_i hw
    rw [dropWhile_ne_dot_of_digits (fun c hc => mem_natToDigits hc)]
    simp [hw]
  · rename_i hw
    rw [dropWhile_append_dot (fun c hc => mem_natToDigits hc)]
    rw [List.drop_one, List.tail_cons]
    exact padLeftZeros_length (natToDigits_length_le (by omega)
      (Nat.mod_lt _ (Nat.pos_pow_of_pos _ (by norm_num))))

theorem head?_dropWhile_false {p : Char → Bool} :
    ∀ {l : List Char} {c : Char}, (l.dropWhile p).head? = some c → p c = false := by
  intro l
  induction l with
  | nil => intro c h; simp [List.dropWhile] at h
  | cons a t ih =>
    intro c h
    rw [List.dropWhile_cons] at h
    split at h
    · exact ih h
    · rename_i hp
      simp at h
      subst h
      simpa using hp

theorem stripTrailingZeros_sublist (s : List Char) :
    List.Sublist (stripTrailingZeros s) s := by
  rw [stripTrailingZeros]
  have h := (List.dropWhile_sublist (l := s.reverse) (fun c => c == '0')).reverse
  simpa using h

theorem getLast?_stripTrailingZeros {s : List Char} (hne : stripTrailingZeros s ≠ []) :
    ∃ c, (stripTrailingZeros s).getLast? = some c ∧ c ≠ '0' := by
  rw [stripTrailingZeros] at hne ⊢
  rcases hh : (s.reverse.dropWhile (fun c => c == '0')).head? with _ | c
  · rw [List.head?_eq_none_iff] at hh
    simp [hh] at hne
  · refine ⟨c, ?_, ?_⟩
    · rw [List.getLast?_reverse]
      exact hh
    · have := head?_dropWhile_false hh
      simpa using this

theorem junkFree_nil : JunkFree [] := by
  constructor
  · simp
  · intro h
    simp at h

theorem junkFree_final {s1 : List Char} {c0 : Char} (h1 : s1.getLast? = some c0)
    (h2 : c0 ≠ '0') (h3 : s1.count '.' ≤ 1) :
    JunkFree (if s1.getLast? = some '.' then s1.dropLast else s1) := by
  by_cases hdot : s1.getLast? = some '.'
  · rw [if_pos hdot]
    have hne : s1 ≠ [] := by
      intro h
      subst h
      simp at h1
    have hlast : s1.getLast hne = '.' := by
      have := List.getLast?_eq_getLast_of_ne_nil hne
      rw [this] at hdot
      exact Option.some_injective _ hdot
    have hsplit := List.dropLast_append_getLast hne
    have hcount : s1.dropLast.count '.' + 1 ≤ 1 := by
      have : s1.count '.' = s1.dropLast.count '.' + 1 := by
        conv_lhs => rw [← hsplit]
        simp [List.count_append, hlast]
      omega
    have hnotmem : '.' ∉ s1.dropLast := by
      rw [← List.count_eq_zero]
      omega
    constructor
    · intro hbad
      exact hnotmem (List.mem_of_mem_getLast? (Option.mem_def.mpr hbad))
    · intro hmem
      exact absurd hmem hnotmem
  · rw [if_neg hdot]
    refine ⟨hdot, fun _ => ?_⟩
    rw [h1]
    intro hbad
    exact h2 (Option.some_injective _ hbad)

theorem count_dot_of_digits {l : List Char} (h : ∀ c ∈ l, c.isDigit = true) :
    l.count '.' = 0 := by
  rw [List.count_eq_zero]
  intro hmem
  exact isDigit_ne_dot (h _ hmem) rfl

theorem junkFree_canonicalize_digits {s : List Char} (h : ∀ c ∈ s, c.isDigit = true) :
    JunkFree (canonicalize s) := by
  rw [canonicalize]
  split
  · rename_i h0
    subst h0
    constructor
    · simp
    · intro hmem
      simp at hmem
  · simp only []
    have hcount : s.count '.' = 0 := count_dot_of_digits h
    by_cases hz : s.getLast? = some '0'
    · rw [if_pos hz]
      by_cases hnil : stripTrailingZeros s = []
      · rw [hnil]
        simp only [List.getLast?_nil]
        rw [if_neg (by simp)]
        exact junkFree_nil
      · obtain ⟨c0, hc0, hc0ne⟩ := getLast?_stripTrailingZeros hnil
        exact junkFree_final hc0 hc0ne
          (le_trans ((stripTrailingZeros_sublist s).count_le '.') (by omega))
    · rw [if_neg hz]
      rcases hl : s.getLast? with _ | c0
      · rw [List.getLast?_eq_none_iff] at hl
        subst hl
        rw [if_neg (by simp)]
        exact junkFree_nil
      · have := junkFree_final hl (fun he => hz (he ▸ hl)) (by omega)
        rwa [hl] at this

theorem junkFree_canonicalize_one_dot {I F : List Char} (hI : ∀ c ∈ I, c.isDigit = true)
    (hF : ∀ c ∈ F, c.isDigit = true) (hInil : I ≠ []) :
    JunkFree (canonicalize (I ++ '.' :: F)) := by
  have hcount : (I ++ '.' :: F).count '.' = 1 := by
    rw [List.count_append, List.count_cons]
    rw [count_dot_of_digits hI, count_dot_of_digits hF]
    simp
  have hs0 : I ++ '.' :: F ≠ ['0'] := by
    intro hbad
    have hlen := congrArg List.length hbad
    simp at hlen
    have : 1 ≤ I.length := List.length_pos.mpr hInil
    omega
  rw [canonicalize, if_neg hs0]
  simp only []
  by_cases hz : (I ++ '.' :: F).getLast? = some '0'
  · rw [if_pos hz]
    have hne : stripTrailingZeros (I ++ '.' :: F) ≠ [] := by
      intro hnil
      rw [stripTrailingZeros, List.reverse_eq_nil_iff] at hnil
      rw [List.dropWhile_eq_nil_iff] at hnil
      have hdotmem : '.' ∈ (I ++ '.' :: F).reverse := by
        rw [List.mem_reverse]
        exact List.mem_append_right _ (by simp)
      have := hnil _ hdotmem
      simp at this
    obtain ⟨c0, hc0, hc0ne⟩ := getLast?_stripTrailingZeros hne
    exact junkFree_final hc0 hc0ne
      (le_trans ((stripTrailingZeros_sublist _).count_le '.') (by omega))
  · rw [if_neg hz]
    rcases hl : (I ++ '.' :: F).getLast? with _ | c0
    · rw [List.getLast?_eq_none_iff] at hl
      simp at hl
    · have := junkFree_final hl (fun he => hz (he ▸ hl)) (by omega)
      rwa [hl] at this

theorem junkFree_canonicalize_renderFixed (w : Nat) (v : Dyadic) :
    JunkFree (canonicalize (renderFixed w v)) := by
  rw [renderFixed]
  split
  · exact junkFree_canonicalize_digits (fun c hc => mem_natToDigits hc)
  · exact junkFree_canonicalize_one_dot (fun c hc => mem_natToDigits hc)
      (fun c hc => mem_padLeftZeros_isDigit (fun x hx => mem_natToDigits hx) hc)
      (natToDigits_ne_nil _)

theorem priceStage_ok_precision {e : OracleError} {s : List Char} {v : Dyadic} {n : Nat}
    (h : priceStage e s = .ok (v, n)) : n = fracCount s := by
  rw [priceStage] at h
  split at h
  · split at h
    · simp at h
    · split at h
      · simp at h
      · simp only [Except.ok.injEq, Prod.mk.injEq] at h
        exact h.2.symm
  · simp at h

set_option maxRecDepth 10000

/-- C1 (counterexample): on the spec's Example 1 inputs the pipeline returns
the canonical price string "802.10617" — the product of 0.01234 and 65000.50
is 802.10617, not the 802.40617 the claim states. -/
theorem claim1_counterexample :
    getNewPrice (mkFeedA 1700000000 "0.01234") (mkFeedB "65000.50")
        (1700000000 * nsPerSecond)
      = .ok (1700000000 * nsPerSecond, "802.10617") ∧
    ("802.10617" : String) ≠ "802.40617" := by
  exact ⟨rfl, by decide⟩

/-- C1 (amended): for feed-A `[{"date":1700000000,"price":"0.01234"}]` and
feed-B `{"success":true,"price":"65000.50"}`, the product renders as
`802.1061700` with `totalPrecision = 7`, the canonical output is
`"802.10617"`, and the timestamp is 1700000000 epoch seconds whenever that
instant is not in the future at evaluation time. -/
theorem claim1_amended (now : Int) (h : 1700000000 * nsPerSecond ≤ now) :
    getNewPrice (mkFeedA 1700000000 "0.01234") (mkFeedB "65000.50") now
      = .ok (1700000000 * nsPerSecond, "802.10617") ∧
    renderFixed 7 (mulDyadic256 (decToDyadic256 1234 5) (decToDyadic256 6500050 2))
      = "802.1061700".data := by
  constructor
  · have h0 : getNewPrice (mkFeedA 1700000000 "0.01234") (mkFeedB "65000.50") now
        = .ok (clampTimestamp 1700000000 now, "802.10617") := rfl
    rw [h0, clampTimestamp, if_neg (not_lt.mpr h)]
  · rfl

/-- C1 (witness): the amended claim instantiated at the evaluation time
1700000000 epoch seconds. -/
theorem claim1_witness :
    getNewPrice (mkFeedA 1700000000 "0.01234") (mkFeedB "65000.50")
        (1700000000 * nsPerSecond)
      = .ok (1700000000 * nsPerSecond, "802.10617") ∧
    renderFixed 7 (mulDyadic256 (decToDyadic256 1234 5) (decToDyadic256 6500050 2))
      = "802.1061700".data :=
  claim1_amended (1700000000 * nsPerSecond) (le_refl _)

/-- C2 (code bug): the trailing-zero strip is not restricted to the
fractional part.  With `totalPrecision = 0` the rendering of prices "10" and
"10" is the integer string "100", and the canonicalization turns it into
"1" — a different numeric value — instead of leaving it unchanged. -/
theorem claim2_integer_zeros_stripped :
    canonicalize ("100".data) = "1".data ∧
    getNewPrice (mkFeedA 1700000000 "10") (mkFeedB "10") (1700000000 * nsPerSecond)
      = .ok (1700000000 * nsPerSecond, "1") := by
  exact ⟨rfl, rfl⟩

/-- C3 (counterexample): the multi-dot string "1.2.3" passes the
character-validation loop (`priceCharsOk` is `true`); it is the parse step
(`parsePrice`, the model of `mpfr_set_str`) that rejects it, contrary to the
claim that the character-validation step itself rejects strings with two or
more periods. -/
theorem claim3_counterexample :
    priceCharsOk ("1.2.3".data) = true ∧ parsePrice ("1.2.3".data) = none ∧
    priceStage .mwcPriceInvalid ("1.2.3".data) = .error .mwcPriceInvalid := by
  exact ⟨rfl, rfl, rfl⟩

/-- C3 (amended): a price string holding a character that is neither an ASCII
digit nor a period is rejected by the character-validation loop before any
parse; a string over digits and periods with two or more periods passes the
character-validation loop and is rejected by the `mpfr_set_str` parse step
instead, with the same price-invalid error. -/
theorem claim3_amended :
    (∀ (s : List Char) (e : OracleError) (c : Char), c ∈ s → c.isDigit = false →
      c ≠ '.' → priceCharsOk s = false ∧ priceStage e s = .error e) ∧
    (∀ (s : List Char) (e : OracleError), priceCharsOk s = true → 2 ≤ s.count '.' →
      parsePrice s = none ∧ priceStage e s = .error e) := by
  constructor
  · intro s e c hmem hd hdot
    have hfalse : priceCharsOk s = false := by
      rw [Bool.eq_false_iff]
      intro hall
      rw [priceCharsOk, List.all_eq_true] at hall
      have hc := hall c hmem
      rw [Bool.or_eq_true, hd] at hc
      rcases hc with hc | hc
      · exact Bool.false_ne_true hc
      · exact hdot (by simpa using hc)
    refine ⟨hfalse, ?_⟩
    rw [priceStage, if_neg]
    simp [hfalse]
  · intro s e hok hcnt
    have hnone : parsePrice s = none := by
      rw [parsePrice, if_neg]
      intro hcond
      rw [Bool.and_eq_true, decide_eq_true_eq] at hcond
      omega
    refine ⟨hnone, ?_⟩
    rw [priceStage, if_pos hok, hnone]

/-- C3 (witness): the amended claim at the concrete inputs "1x" (rejected by
the character loop) — the multi-dot half is witnessed by the same theorem at
"1.2.3". -/
theorem claim3_witness :
    (priceCharsOk ("1x".data) = false ∧
      priceStage OracleError.mwcPriceInvalid ("1x".data) = .error .mwcPriceInvalid) ∧
    (parsePrice ("9.2.3".data) = none ∧
      priceStage OracleError.btcPriceInvalid ("9.2.3".data) = .error .btcPriceInvalid) :=
  ⟨claim3_amended.1 ("1x".data) .mwcPriceInvalid 'x' (by decide) (by decide) (by decide),
   claim3_amended.2 ("9.2.3".data) .btcPriceInvalid (by decide) (by decide)⟩

/-- C4 (counterexample): a feed-A `date` equal to the maximum representable
seconds value (`maxSeconds`) is NOT rejected: the range check only rejects
strictly greater values, so the pipeline succeeds (and the far-future
timestamp is clamped to "now"). -/
theorem claim4_counterexample :
    getNewPrice (mkFeedA maxSeconds "2") (mkFeedB "3") 0 = .ok (0, "6") ∧
    (Except.ok ((0 : Int), ("6" : String)) : Except OracleError (Int × String))
      ≠ .error .dateInvalid := by
  exact ⟨rfl, fun hbad => Except.noConfusion hbad⟩

/-- C4 (amended): every feed-A `date` strictly outside the
`[minSeconds, maxSeconds]` range is rejected with the date-invalid error,
before feed-B is even examined; a date equal to either bound is accepted. -/
theorem claim4_amended (date : Int) (b : Json) (now : Int)
    (h : date < minSeconds ∨ maxSeconds < date) :
    getNewPrice (mkFeedA date "1") b now = .error .dateInvalid := by
  have hA : feedAStage (mkFeedA date "1") = .ok (date, "1".data) := rfl
  simp only [getNewPrice, hA]
  rw [if_pos h]

/-- C4 (witness): the amended claim at `date = maxSeconds + 1`. -/
theorem claim4_witness :
    getNewPrice (mkFeedA (maxSeconds + 1) "1") Json.null 0 = .error .dateInvalid :=
  claim4_amended (maxSeconds + 1) Json.null 0 (Or.inr (lt_add_one maxSeconds))

/-- C5: whenever the pipeline returns a result, the returned timestamp is the
feed-A date converted to nanoseconds since the epoch, except when that
instant is strictly after "now", in which case it is "now"; post-clamp the
timestamp never exceeds "now". -/
theorem claim5_timestamp_clamp (a b : Json) (now ts : Int) (s : String) (date : Int)
    (p : List Char) (hA : feedAStage a = .ok (date, p))
    (hok : getNewPrice a b now = .ok (ts, s)) :
    ts = (if date * nsPerSecond > now then now else date * nsPerSecond) ∧ ts ≤ now := by
  simp only [getNewPrice, hA] at hok
  split at hok
  · exact absurd hok (by simp)
  · split at hok
    · exact absurd hok (by simp)
    · simp only [Except.ok.injEq, Prod.mk.injEq] at hok
      obtain ⟨hts, -⟩ := hok
      subst hts
      constructor
      · rfl
      · rw [clampTimestamp]
        split
        · exact le_refl now
        · rename_i hq
          exact not_lt.mp hq

/-- C5 (witness): the clamp property at a concrete run with a future date
(5 seconds epoch, "now" = 7 nanoseconds), where the result is clamped. -/
theorem claim5_witness :
    (7 : Int) = (if (5 : Int) * nsPerSecond > 7 then 7 else 5 * nsPerSecond) ∧
    (7 : Int) ≤ 7 :=
  claim5_timestamp_clamp (mkFeedA 5 "2") (mkFeedB "3") 7 7 "6" 5 ("2".data) rfl rfl

/-- C6: for any two price strings accepted by the price stages, the total
precision is the sum of the two literals' fractional-digit counts, the
rendered product has exactly that many fractional digits (rendering rounds
ties to even via `rheDivInt` inside `renderFixed`), and the canonicalized
form has no dangling decimal point and no trailing fractional zero. -/
theorem claim6_precision_render (s t : List Char) (ea eb : OracleError)
    (v w : Dyadic) (m n : Nat)
    (hA : priceStage ea s = .ok (v, m)) (hB : priceStage eb t = .ok (w, n)) :
    m + n = fracCount s + fracCount t ∧
    fracCount (renderFixed (m + n) (mulDyadic256 v w)) = m + n ∧
    specCanonical (canonicalize (renderFixed (m + n) (mulDyadic256 v w))) = true := by
  refine ⟨?_, fracCount_renderFixed _ _,
    specCanonical_eq_true_iff.mpr (junkFree_canonicalize_renderFixed _ _)⟩
  rw [priceStage_ok_precision hA, priceStage_ok_precision hB]

/-- C6 (witness): the precision/rendering claim at the concrete pair
("1.5", "2"). -/
theorem claim6_witness :
    1 + 0 = fracCount ("1.5".data) + fracCount ("2".data) ∧
    fracCount (renderFixed (1 + 0)
      (mulDyadic256 (decToDyadic256 15 1) (decToDyadic256 2 0))) = 1 + 0 ∧
    specCanonical (canonicalize (renderFixed (1 + 0)
      (mulDyadic256 (decToDyadic256 15 1) (decToDyadic256 2 0)))) = true :=
  claim6_precision_render ("1.5".data) ("2".data) .mwcPriceInvalid .btcPriceInvalid
    (decToDyadic256 15 1) (decToDyadic256 2 0) 1 0 rfl rfl

/-- C7 (code bug): the stripping step is not idempotent and not a no-op on
canonical strings: "30" is canonical in the spec's sense (no fractional part,
no dangling point) yet is rewritten to "3"; equally, re-running the step on
its own output for "30.00" changes "30" into "3". -/
theorem claim7_canonicalize_not_noop :
    specCanonical ("30".data) = true ∧ canonicalize ("30".data) = "3".data ∧
    canonicalize (canonicalize ("30.00".data)) ≠ canonicalize ("30.00".data) := by
  exact ⟨rfl, rfl, by decide⟩

/-- C8: the feed-A observation the source extracts (`at(size - 1)`) is always
the array's last element, whatever the `date` values of earlier elements. -/
theorem claim8_last_element (elems : List Json) (h : elems ≠ []) :
    feedALast elems = some (elems.getLast h) := by
  have hpos : 0 < elems.length := List.length_pos.mpr h
  rw [feedALast, List.getElem?_eq_getElem (by omega)]
  rw [List.getLast_eq_getElem]

/-- C8 (witness): extraction picks the last element even when an earlier
element is larger. -/
theorem claim8_witness :
    feedALast [Json.int 99, Json.int 1] = some (Json.int 1) :=
  claim8_last_element [Json.int 99, Json.int 1] (by simp)

/-- C9 (counterexample): with a valid feed-A and feed-B
`{"success":false,"price":"100"}` the pipeline does reject with the feed-B
shape error, but the feed-A timestamp-clamp block has already executed by
then (it appears in the executed-stage trace), contrary to the claim that
the pipeline aborts before executing it. -/
theorem claim9_counterexample :
    getNewPrice (mkFeedA 1700000000 "1") badFeedB 0 = .error .btcResponseInvalid ∧
    Stage.timestampClamp ∈ executedStages (mkFeedA 1700000000 "1") badFeedB := by
  exact ⟨rfl, by decide⟩

/-- C9 (amended): for every evaluation time, feed-B
`{"success":false,"price":"100"}` makes the pipeline fail with the feed-B
shape error and produce no result; feed-A's timestamp clamp has already run
by that point, because feed-A is processed first in the source. -/
theorem claim9_amended (now : Int) :
    getNewPrice (mkFeedA 1700000000 "1") badFeedB now = .error .btcResponseInvalid ∧
    Stage.timestampClamp ∈ executedStages (mkFeedA 1700000000 "1") badFeedB := by
  exact ⟨rfl, by decide⟩

/-- C10: every price string that passes the character-validation loop but has
no digit at all or more than one period (such as "" or ".") fails the
`mpfr_set_str` parse, and the price stage throws the price-invalid error; no
such string yields a value. -/
theorem claim10_invalid_literal_rejected (s : List Char) (e : OracleError)
    (hok : priceCharsOk s = true)
    (hbad : s.any Char.isDigit = false ∨ 2 ≤ s.count '.') :
    parsePrice s = none ∧ priceStage e s = .error e := by
  have hnone : parsePrice s = none := by
    rw [parsePrice, if_neg]
    intro hcond
    rw [Bool.and_eq_true, decide_eq_true_eq] at hcond
    obtain ⟨h1, h2⟩ := hcond
    rcases hbad with hb | hb
    · rw [hb] at h2
      exact Bool.false_ne_true h2
    · omega
  refine ⟨hnone, ?_⟩
  rw [priceStage, if_pos hok, hnone]

/-- C10 (witness): the lone-dot string "." passes the character loop and is
rejected by the parse. -/
theorem claim10_witness :
    parsePrice (".".data) = none ∧
    priceStage OracleError.mwcPriceInvalid (".".data) = .error .mwcPriceInvalid :=
  claim10_invalid_literal_rejected (".".data) .mwcPriceInvalid rfl (Or.inl rfl)

end TradeOgre

